import Mathlib

/-!
Verification of the HashSafe streaming file hasher (src/main.rs).

The embedding models:
  * the SHA-256 accumulator provided by the `sha2` crate (`Sha256::new`,
    `update`, `finalize`), as the FIPS 180-4 algorithm over byte lists;
  * `hex::encode`, producing lowercase hexadecimal;
  * `calculate_hash`, the chunked-read loop over a file model that can fail
    at open time or at any individual read;
  * `run_cli` and `main`, as functions from arguments and a file system model
    to the produced stdout/stderr lines and exit code.

Machine integers are modelled as `Nat` reduced modulo `2^32` (words) or
`2^64` (the bit-length counter); bytes are `Nat` values below 256.
Loops are written by structural recursion on an explicit step budget that the
wrapper instantiates with a sufficient value; the recurrence each loop
satisfies is proved as an equation lemma below.
-/

set_option maxRecDepth 8000

namespace HashSafe

/-- Reduction modulus 2^32, the u32 word size used by SHA-256. -/
def m32 : Nat := 4294967296

/-- Rotate a 32-bit word right by `n` bits. -/
def rotr (n x : Nat) : Nat := (x >>> n) ||| ((x <<< (32 - n)) % m32)

/-- SHA-256 choice function. -/
def ch (x y z : Nat) : Nat := (x &&& y) ^^^ ((x ^^^ 4294967295) &&& z)

/-- SHA-256 majority function. -/
def maj (x y z : Nat) : Nat := (x &&& y) ^^^ (x &&& z) ^^^ (y &&& z)

/-- SHA-256 big sigma 0. -/
def bsig0 (x : Nat) : Nat := rotr 2 x ^^^ rotr 13 x ^^^ rotr 22 x

/-- SHA-256 big sigma 1. -/
def bsig1 (x : Nat) : Nat := rotr 6 x ^^^ rotr 11 x ^^^ rotr 25 x

/-- SHA-256 small sigma 0. -/
def ssig0 (x : Nat) : Nat := rotr 7 x ^^^ rotr 18 x ^^^ (x >>> 3)

/-- SHA-256 small sigma 1. -/
def ssig1 (x : Nat) : Nat := rotr 17 x ^^^ rotr 19 x ^^^ (x >>> 10)

/-- The 64 SHA-256 round constants (FIPS 180-4 section 4.2.2, written in
decimal). -/
def K : List Nat :=
  [1116352408, 1899447441, 3049323471, 3921009573, 961987163, 1508970993,
   2453635748, 2870763221, 3624381080, 310598401, 607225278, 1426881987,
   1925078388, 2162078206, 2614888103, 3248222580, 3835390401, 4022224774,
   264347078, 604807628, 770255983, 1249150122, 1555081692, 1996064986,
   2554220882, 2821834349, 2952996808, 3210313671, 3336571891, 3584528711,
   113926993, 338241895, 666307205, 773529912, 1294757372, 1396182291,
   1695183700, 1986661051, 2177026350, 2456956037, 2730485921, 2820302411,
   3259730800, 3345764771, 3516065817, 3600352804, 4094571909, 275423344,
   430227734, 506948616, 659060556, 883997877, 958139571, 1322822218,
   1537002063, 1747873779, 1955562222, 2024104815, 2227730452, 2361852424,
   2428436474, 2756734187, 3204031479, 3329325298]

/-- The eight 32-bit working variables of the SHA-256 state. -/
structure Hash8 where
  a : Nat
  b : Nat
  c : Nat
  d : Nat
  e : Nat
  f : Nat
  g : Nat
  h : Nat
  deriving DecidableEq

/-- The SHA-256 initial hash value (FIPS 180-4 section 5.3.3, written in
decimal). -/
def initH : Hash8 :=
  ⟨1779033703, 3144134277, 1013904242, 2773480762,
   1359893119, 2600822924, 528734635, 1541459225⟩

/-- Group a byte list into big-endian 32-bit words, four bytes per word. -/
def toWords : List Nat → List Nat
  | b0 :: b1 :: b2 :: b3 :: rest => (((b0 * 256 + b1) * 256 + b2) * 256 + b3) :: toWords rest
  | _ => []

/-- Append the next message-schedule word to a partial schedule. -/
def scheduleStep (w : List Nat) : List Nat :=
  let n := w.length
  w ++ [(ssig1 (w.getD (n - 2) 0) + w.getD (n - 7) 0 + ssig0 (w.getD (n - 15) 0) +
         w.getD (n - 16) 0) % m32]

/-- Apply `scheduleStep` a given number of times. -/
def extendW : Nat → List Nat → List Nat
  | 0, w => w
  | n + 1, w => extendW n (scheduleStep w)

/-- One round of the SHA-256 compression function, consuming a pair of a round
constant and a schedule word. -/
def roundStep (s : Hash8) (kw : Nat × Nat) : Hash8 :=
  let t1 := (s.h + bsig1 s.e + ch s.e s.f s.g + kw.1 + kw.2) % m32
  let t2 := (bsig0 s.a + maj s.a s.b s.c) % m32
  ⟨(t1 + t2) % m32, s.a, s.b, s.c, (s.d + t1) % m32, s.e, s.f, s.g⟩

/-- The SHA-256 compression function on one 64-byte block. -/
def compress (h0 : Hash8) (block : List Nat) : Hash8 :=
  let w := extendW 48 (toWords block)
  let s := (K.zip w).foldl roundStep h0
  ⟨(h0.a + s.a) % m32, (h0.b + s.b) % m32, (h0.c + s.c) % m32, (h0.d + s.d) % m32,
   (h0.e + s.e) % m32, (h0.f + s.f) % m32, (h0.g + s.g) % m32, (h0.h + s.h) % m32⟩

/-- Big-endian 8-byte encoding of the 64-bit message bit length. -/
def lenBytes (len : Nat) : List Nat :=
  let bits := (len * 8) % 18446744073709551616
  [(bits >>> 56) &&& 255, (bits >>> 48) &&& 255, (bits >>> 40) &&& 255, (bits >>> 32) &&& 255,
   (bits >>> 24) &&& 255, (bits >>> 16) &&& 255, (bits >>> 8) &&& 255, bits &&& 255]

/-- SHA-256 padding for a message of `len` bytes: a 0x80 byte, zeros up to 56
modulo 64, then the bit length. -/
def padding (len : Nat) : List Nat :=
  0x80 :: (List.replicate ((119 - len % 64) % 64) 0 ++ lenBytes len)

/-- The four bytes of one hash word, most significant first. -/
def wordBytes (w : Nat) : List Nat :=
  [(w >>> 24) &&& 255, (w >>> 16) &&& 255, (w >>> 8) &&& 255, w &&& 255]

/-- Serialize the eight hash words as 32 big-endian bytes. -/
def wordsToBytes (s : Hash8) : List Nat :=
  wordBytes s.a ++ wordBytes s.b ++ wordBytes s.c ++ wordBytes s.d ++
    wordBytes s.e ++ wordBytes s.f ++ wordBytes s.g ++ wordBytes s.h

/-- Split a byte list into successive 64-byte blocks, with a step budget. -/
def toBlocksGo : Nat → List Nat → List (List Nat)
  | 0, _ => []
  | fuel + 1, l => if l.isEmpty then [] else l.take 64 :: toBlocksGo fuel (l.drop 64)

/-- Split a byte list into successive 64-byte blocks (the last may be short).
Used by the reference one-shot formulation of SHA-256. -/
def toBlocks (l : List Nat) : List (List Nat) := toBlocksGo l.length l

/-- Reference one-shot SHA-256 of a whole message, per FIPS 180-4: pad, split
into 64-byte blocks, fold the compression function, serialize. -/
def sha256_spec (msg : List Nat) : List Nat :=
  wordsToBytes (List.foldl compress initH (toBlocks (msg ++ padding msg.length)))

/-- Greedily compress complete 64-byte blocks at the front of `data`, with a
step budget. -/
def processBlocksGo : Nat → Hash8 → List Nat → Hash8 × List Nat
  | 0, h, data => (h, data)
  | fuel + 1, h, data =>
    if 64 ≤ data.length then processBlocksGo fuel (compress h (data.take 64)) (data.drop 64)
    else (h, data)

/-- Compress every complete 64-byte block at the front of `data`, returning
the new hash state and the remaining (fewer than 64) bytes. This is the
buffering engine of the incremental `sha2` hasher. -/
def processBlocks (h : Hash8) (data : List Nat) : Hash8 × List Nat :=
  processBlocksGo data.length h data

/-- The incremental SHA-256 hasher of the `sha2` crate: current hash words, a
buffer of fewer than 64 pending bytes, and the total byte count so far. -/
structure Sha256 where
  h : Hash8
  buf : List Nat
  len : Nat

/-- Model of `Sha256::new()`. -/
def Sha256.new : Sha256 := ⟨initH, [], 0⟩

/-- Model of `Sha256::update`: absorb the input, compressing every completed
64-byte block and buffering the remainder. -/
def Sha256.update (s : Sha256) (input : List Nat) : Sha256 :=
  let p := processBlocks s.h (s.buf ++ input)
  ⟨p.1, p.2, s.len + input.length⟩

/-- Model of `Sha256::finalize`: pad the buffered tail according to the total
length and compress, then serialize the digest. -/
def Sha256.finalize (s : Sha256) : List Nat :=
  wordsToBytes (processBlocks s.h (s.buf ++ padding s.len)).1

/-- The lowercase hexadecimal digit characters, in order — the lookup table
of the `hex` crate. -/
def hexChars : List Char := "0123456789abcdef".data

/-- The lowercase hexadecimal digit for a value below 16. -/
def hexDigit (n : Nat) : Char := hexChars.getD n '0'

/-- The character list of `hex::encode`: two lowercase hex digits per byte,
high nibble first. -/
def hexList (bs : List Nat) : List Char :=
  bs.foldr (fun b acc => hexDigit (b >>> 4) :: hexDigit (b &&& 15) :: acc) []

/-- Model of `hex::encode`. -/
def hex_encode (bs : List Nat) : String := String.mk (hexList bs)

/-- Recognizer for lowercase hexadecimal digit characters. -/
def isHexDigitLower (c : Char) : Bool := hexChars.contains c

/-- A file as `calculate_hash` can observe it: `File::open` either fails with
an I/O error message or yields the byte content; independently, the read call
with (0-based) index `readFailAt.1` fails with message `readFailAt.2`. -/
structure FileModel where
  openResult : Except String (List Nat)
  readFailAt : Option (Nat × String)

/-- The outcome of the `reader.read(&mut buffer)` call number `idx`: fails
when the model places a failure at this index. -/
def readError (failAt : Option (Nat × String)) (idx : Nat) : Option String :=
  match failAt with
  | some (j, e) => if j = idx then some e else none
  | none => none

/-- The read loop of `calculate_hash`, with a step budget: call `read`, which
may fail; break when it returns 0 bytes; otherwise feed exactly the bytes read
into the hasher and continue. Each read takes up to 1024 bytes. -/
def hashLoopGo : Nat → Sha256 → List Nat → Nat → Option (Nat × String) → Except String Sha256
  | 0, hasher, _, _, _ => .ok hasher
  | fuel + 1, hasher, remaining, idx, failAt =>
    match readError failAt idx with
    | some e => .error e
    | none =>
      if remaining.isEmpty then .ok hasher
      else hashLoopGo fuel (hasher.update (remaining.take 1024)) (remaining.drop 1024)
        (idx + 1) failAt

/-- The read loop of `calculate_hash` (lines 38-44 of main.rs). -/
def hashLoop (hasher : Sha256) (remaining : List Nat) (idx : Nat)
    (failAt : Option (Nat × String)) : Except String Sha256 :=
  hashLoopGo (remaining.length + 1) hasher remaining idx failAt

/-- Model of `calculate_hash`: open the file, run the chunked-read loop from a
fresh hasher, and hex-encode the finalized digest; any I/O error propagates. -/
def calculate_hash (f : FileModel) : Except String String :=
  match f.openResult with
  | .error e => .error e
  | .ok content =>
    match hashLoop Sha256.new content 0 f.readFailAt with
    | .error e => .error e
    | .ok hasher => .ok (hex_encode hasher.finalize)

/-- The observable behavior of one `run_cli` call: stdout lines, stderr lines,
and the returned `io::Result`. -/
structure CliOutput where
  stdout : List String
  stderr : List String
  result : Except String Unit

/-- Model of `run_cli`: print the status line, then either print the hash line
and return Ok, or report the error to stderr and return it. -/
def run_cli (path : String) (f : FileModel) : CliOutput :=
  match calculate_hash f with
  | .ok hash => ⟨["Calculating hash for: " ++ path, "SHA-256 Hash: " ++ hash], [], .ok ()⟩
  | .error e => ⟨["Calculating hash for: " ++ path], ["Error calculating hash: " ++ e], .error e⟩

/-- The parsed command-line arguments (struct `Args`). -/
structure Args where
  file : Option String
  cli : Bool

/-- The observable behavior of one whole process run. -/
structure ProcResult where
  stdout : List String
  stderr : List String
  exitCode : Nat

/-- Model of `main`: dispatch on the flags; in CLI mode run `run_cli` and on
its error print `Error: ...` and exit 1; otherwise run the GUI when that
feature is compiled in, else report the missing capability. `fs` maps a path
to the file the process would observe there; `guiAvailable` is the build
feature; `guiResult` the outcome of `gui::run_gui()`. -/
def main (args : Args) (fs : String → FileModel) (guiAvailable : Bool)
    (guiResult : Except String Unit) : ProcResult :=
  if args.cli || args.file.isSome then
    match args.file with
    | some path =>
      let out := run_cli path (fs path)
      match out.result with
      | .ok _ => ⟨out.stdout, out.stderr, 0⟩
      | .error e => ⟨out.stdout, out.stderr ++ ["Error: " ++ e], 1⟩
    | none => ⟨[], ["In CLI mode, you must specify a file with --file"], 1⟩
  else if guiAvailable then
    match guiResult with
    | .ok _ => ⟨[], [], 0⟩
    | .error e => ⟨[], ["Error starting GUI: " ++ e], 1⟩
  else
    ⟨[], ["This version was compiled without GUI support.",
          "Use --file to specify a file in CLI mode."], 1⟩

/-- Split a list into consecutive chunks of `n` elements, with a step
budget. -/
def chunksOfGo : Nat → Nat → List Nat → List (List Nat)
  | 0, _, _ => []
  | fuel + 1, n, l =>
    if l.isEmpty then []
    else if n = 0 then [l]
    else l.take n :: chunksOfGo fuel n (l.drop n)

/-- Split a list into consecutive chunks of `n` elements (the last may be
short); used to express reading the same content with another chunk size. -/
def chunksOf (n : Nat) (l : List Nat) : List (List Nat) := chunksOfGo l.length n l

/-! ### Properties of the block-processing engine -/

/-- A budget at or past the stopping point leaves short data untouched. -/
theorem processBlocksGo_stop (fuel : Nat) (h : Hash8) (data : List Nat)
    (hlt : data.length < 64) : processBlocksGo fuel h data = (h, data) := by
  cases fuel with
  | zero => rfl
  | succ n =>
    simp only [processBlocksGo]
    rw [if_neg (by omega)]

/-- Any sufficient step budget computes `processBlocks`. -/
theorem processBlocksGo_irrel (fuel : Nat) :
    ∀ (h : Hash8) (data : List Nat), data.length ≤ fuel →
      processBlocksGo fuel h data = processBlocks h data := by
  induction fuel using Nat.strong_induction_on with
  | _ fuel ih =>
    intro h data hle
    by_cases h64 : 64 ≤ data.length
    · obtain ⟨f1, rfl⟩ : ∃ f1, fuel = f1 + 1 := ⟨fuel - 1, by omega⟩
      obtain ⟨m, hm⟩ : ∃ m, data.length = m + 1 := ⟨data.length - 1, by omega⟩
      have hL : processBlocksGo (f1 + 1) h data =
          processBlocksGo f1 (compress h (data.take 64)) (data.drop 64) := by
        simp only [processBlocksGo]
        rw [if_pos h64]
      have hR : processBlocksGo (m + 1) h data =
          processBlocksGo m (compress h (data.take 64)) (data.drop 64) := by
        simp only [processBlocksGo]
        rw [if_pos h64]
      rw [hL, processBlocks, hm, hR,
        ih f1 (by omega) _ _ (by simp only [List.length_drop]; omega),
        ih m (by omega) _ _ (by simp only [List.length_drop]; omega)]
    · rw [processBlocksGo_stop fuel h data (by omega), processBlocks,
        processBlocksGo_stop data.length h data (by omega)]

/-- The recurrence `processBlocks` satisfies. -/
theorem processBlocks_eq (h : Hash8) (data : List Nat) :
    processBlocks h data =
      if 64 ≤ data.length then processBlocks (compress h (data.take 64)) (data.drop 64)
      else (h, data) := by
  by_cases h64 : 64 ≤ data.length
  · rw [if_pos h64]
    obtain ⟨m, hm⟩ : ∃ m, data.length = m + 1 := ⟨data.length - 1, by omega⟩
    have hR : processBlocksGo (m + 1) h data =
        processBlocksGo m (compress h (data.take 64)) (data.drop 64) := by
      simp only [processBlocksGo]
      rw [if_pos h64]
    rw [processBlocks, hm, hR,
      processBlocksGo_irrel m _ _ (by simp only [List.length_drop]; omega)]
  · rw [if_neg h64, processBlocks, processBlocksGo_stop _ _ _ (by omega)]

/-- Processing a concatenation is processing the first part and continuing
from its leftover bytes: the engine is insensitive to where the input is
split. -/
theorem processBlocks_append_aux : ∀ n, ∀ d : List Nat, d.length ≤ n →
    ∀ (h : Hash8) (e : List Nat),
      processBlocks h (d ++ e) =
        processBlocks (processBlocks h d).1 ((processBlocks h d).2 ++ e) := by
  intro n
  induction n with
  | zero =>
    intro d hd h e
    rw [processBlocks_eq h d, if_neg (by omega)]
  | succ n ihn =>
    intro d hd h e
    by_cases h64 : 64 ≤ d.length
    · have ht : (d ++ e).take 64 = d.take 64 := by
        rw [List.take_append_eq_append_take, Nat.sub_eq_zero_of_le h64, List.take_zero,
          List.append_nil]
      have hdr : (d ++ e).drop 64 = d.drop 64 ++ e := by
        rw [List.drop_append_eq_append_drop, Nat.sub_eq_zero_of_le h64, List.drop_zero]
      rw [processBlocks_eq h (d ++ e), if_pos (by simp only [List.length_append]; omega),
        ht, hdr, ihn (d.drop 64) (by simp only [List.length_drop]; omega),
        processBlocks_eq h d, if_pos h64]
    · rw [processBlocks_eq h d, if_neg h64]

/-- Splitting form of `processBlocks_append_aux`. -/
theorem processBlocks_append (d : List Nat) (h : Hash8) (e : List Nat) :
    processBlocks h (d ++ e) =
      processBlocks (processBlocks h d).1 ((processBlocks h d).2 ++ e) :=
  processBlocks_append_aux d.length d (le_refl _) h e

/-- Any sufficient step budget computes `toBlocks`. -/
theorem toBlocksGo_irrel (fuel : Nat) :
    ∀ l : List Nat, l.length ≤ fuel → toBlocksGo fuel l = toBlocks l := by
  induction fuel using Nat.strong_induction_on with
  | _ fuel ih =>
    intro l hle
    rcases eq_or_ne l [] with rfl | hne
    · cases fuel with
      | zero => rfl
      | succ n => rfl
    · obtain ⟨f1, rfl⟩ : ∃ f1, fuel = f1 + 1 :=
        ⟨fuel - 1, by have := List.length_pos.mpr hne; omega⟩
      obtain ⟨m, hm⟩ : ∃ m, l.length = m + 1 :=
        ⟨l.length - 1, by have := List.length_pos.mpr hne; omega⟩
      have hL : toBlocksGo (f1 + 1) l = l.take 64 :: toBlocksGo f1 (l.drop 64) := by
        simp only [toBlocksGo]
        rw [if_neg (by simp [hne])]
      have hR : toBlocksGo (m + 1) l = l.take 64 :: toBlocksGo m (l.drop 64) := by
        simp only [toBlocksGo]
        rw [if_neg (by simp [hne])]
      rw [hL, toBlocks, hm, hR,
        ih f1 (by omega) _ (by simp only [List.length_drop]; omega),
        ih m (by omega) _ (by simp only [List.length_drop]; omega)]

/-- The recurrence `toBlocks` satisfies on nonempty lists. -/
theorem toBlocks_eq (l : List Nat) (hne : l ≠ []) :
    toBlocks l = l.take 64 :: toBlocks (l.drop 64) := by
  obtain ⟨m, hm⟩ : ∃ m, l.length = m + 1 :=
    ⟨l.length - 1, by have := List.length_pos.mpr hne; omega⟩
  have hR : toBlocksGo (m + 1) l = l.take 64 :: toBlocksGo m (l.drop 64) := by
    simp only [toBlocksGo]
    rw [if_neg (by simp [hne])]
  rw [toBlocks, hm, hR, toBlocksGo_irrel m _ (by simp only [List.length_drop]; omega)]

/-- On an exact multiple of 64 bytes the engine consumes everything and folds
the compression function over the 64-byte blocks. -/
theorem processBlocks_multiple_aux : ∀ n, ∀ data : List Nat, data.length ≤ n →
    data.length % 64 = 0 → ∀ h : Hash8,
      processBlocks h data = (List.foldl compress h (toBlocks data), []) := by
  intro n
  induction n with
  | zero =>
    intro data hle _ h
    have hd : data = [] := List.eq_nil_of_length_eq_zero (by omega)
    subst hd
    rfl
  | succ n ihn =>
    intro data hle hmod h
    rcases eq_or_ne data [] with rfl | hne
    · rfl
    · have hpos := List.length_pos.mpr hne
      have h64 : 64 ≤ data.length := by omega
      rw [processBlocks_eq, if_pos h64, toBlocks_eq data hne, List.foldl_cons,
        ihn (data.drop 64) (by simp only [List.length_drop]; omega)
          (by simp only [List.length_drop]; omega) (compress h (data.take 64))]

/-- Top-level form of `processBlocks_multiple_aux`. -/
theorem processBlocks_multiple (data : List Nat) (h : Hash8)
    (hmod : data.length % 64 = 0) :
    processBlocks h data = (List.foldl compress h (toBlocks data), []) :=
  processBlocks_multiple_aux data.length data (le_refl _) hmod h

/-! ### Streaming correctness of the incremental hasher -/

/-- Two successive updates absorb the concatenation: the incremental hasher
does not depend on how its input is split across `update` calls. -/
theorem Sha256.update_update (s : Sha256) (a b : List Nat) :
    (s.update a).update b = s.update (a ++ b) := by
  have hpb := processBlocks_append (s.buf ++ a) s.h b
  simp only [Sha256.update]
  rw [← List.append_assoc, hpb]
  simp [Nat.add_assoc]

/-- Folding `update` over chunks, starting after absorbing `a`, absorbs the
joined input. -/
theorem foldl_update (cs : List (List Nat)) : ∀ a : List Nat,
    List.foldl Sha256.update (Sha256.new.update a) cs = Sha256.new.update (a ++ cs.flatten) := by
  induction cs with
  | nil => intro a; simp
  | cons c cs ih =>
    intro a
    simp only [List.foldl_cons, List.flatten_cons]
    rw [Sha256.update_update, ih (a ++ c), List.append_assoc]

/-- Folding `update` over chunks from a fresh hasher absorbs the joined
input in one update. -/
theorem foldl_update_new (cs : List (List Nat)) :
    List.foldl Sha256.update Sha256.new cs = Sha256.new.update cs.flatten := by
  have h := foldl_update cs []
  rw [show Sha256.new.update [] = Sha256.new from rfl] at h
  simpa using h

/-- The padded message length is a multiple of the block size. -/
theorem padding_length (len : Nat) : (len + (padding len).length) % 64 = 0 := by
  simp only [padding, lenBytes, List.length_cons, List.length_append, List.length_replicate]
  obtain ⟨q, m, hlen, hm⟩ : ∃ q m, len = 64 * q + m ∧ m < 64 :=
    ⟨len / 64, len % 64, by omega, Nat.mod_lt _ (by omega)⟩
  subst hlen
  have hmod : (64 * q + m) % 64 = m := by omega
  rw [hmod, Nat.add_assoc, Nat.mul_add_mod]
  clear hmod
  revert hm
  revert m
  decide

/-- Finalizing after absorbing `msg` incrementally yields the reference
one-shot SHA-256 of `msg`. -/
theorem finalize_update_new (msg : List Nat) :
    (Sha256.new.update msg).finalize = sha256_spec msg := by
  simp only [Sha256.update, Sha256.new, Sha256.finalize]
  rw [List.nil_append, Nat.zero_add, ← processBlocks_append msg initH (padding msg.length),
    processBlocks_multiple _ _ (by rw [List.length_append]; exact padding_length msg.length)]
  rfl

/-! ### Properties of the read loop of calculate_hash -/

/-- Any sufficient step budget computes `hashLoop`. -/
theorem hashLoopGo_irrel (fuel : Nat) :
    ∀ (s : Sha256) (rem : List Nat) (idx : Nat) (fa : Option (Nat × String)),
      rem.length + 1 ≤ fuel → hashLoopGo fuel s rem idx fa = hashLoop s rem idx fa := by
  induction fuel using Nat.strong_induction_on with
  | _ fuel ih =>
    intro s rem idx fa hle
    obtain ⟨f1, rfl⟩ : ∃ f1, fuel = f1 + 1 := ⟨fuel - 1, by omega⟩
    rw [hashLoop]
    cases hre : readError fa idx with
    | some e => simp only [hashLoopGo, hre]
    | none =>
      rcases eq_or_ne rem [] with rfl | hne
      · simp only [hashLoopGo, hre, List.isEmpty_nil, if_true]
      · have hpos := List.length_pos.mpr hne
        have hL : hashLoopGo (f1 + 1) s rem idx fa =
            hashLoopGo f1 (s.update (rem.take 1024)) (rem.drop 1024) (idx + 1) fa := by
          simp only [hashLoopGo, hre]
          rw [if_neg (by simp [hne])]
        have hR : hashLoopGo (rem.length + 1) s rem idx fa =
            hashLoopGo rem.length (s.update (rem.take 1024)) (rem.drop 1024) (idx + 1) fa := by
          simp only [hashLoopGo, hre]
          rw [if_neg (by simp [hne])]
        rw [hL, hR, ih f1 (by omega) _ _ _ _ (by simp only [List.length_drop]; omega),
          ih rem.length (by omega) _ _ _ _ (by simp only [List.length_drop]; omega)]

/-- A failing read aborts the loop with that error. -/
theorem hashLoop_error_step (s : Sha256) (rem : List Nat) (idx : Nat)
    (fa : Option (Nat × String)) (e : String) (hre : readError fa idx = some e) :
    hashLoop s rem idx fa = .error e := by
  rw [hashLoop]
  simp only [hashLoopGo, hre]

/-- A zero-byte read (end of file) breaks the loop, returning the hasher. -/
theorem hashLoop_nil (s : Sha256) (idx : Nat) (fa : Option (Nat × String))
    (hre : readError fa idx = none) : hashLoop s [] idx fa = .ok s := by
  rw [hashLoop]
  simp only [hashLoopGo, hre, List.isEmpty_nil, if_true]

/-- A successful nonempty read feeds exactly the bytes read into the hasher
and continues. -/
theorem hashLoop_cons (s : Sha256) (rem : List Nat) (idx : Nat)
    (fa : Option (Nat × String)) (hre : readError fa idx = none) (hne : rem ≠ []) :
    hashLoop s rem idx fa =
      hashLoop (s.update (rem.take 1024)) (rem.drop 1024) (idx + 1) fa := by
  have hpos := List.length_pos.mpr hne
  rw [hashLoop]
  simp only [hashLoopGo, hre]
  rw [if_neg (by simp [hne])]
  exact hashLoopGo_irrel rem.length _ _ _ _ (by simp only [List.length_drop]; omega)

/-- With no read failure the loop absorbs the whole remaining content. -/
theorem hashLoop_none_aux : ∀ n, ∀ rem : List Nat, rem.length ≤ n →
    ∀ (a : List Nat) (idx : Nat),
      hashLoop (Sha256.new.update a) rem idx none = .ok (Sha256.new.update (a ++ rem)) := by
  intro n
  induction n with
  | zero =>
    intro rem hle a idx
    have hrem : rem = [] := List.eq_nil_of_length_eq_zero (by omega)
    subst hrem
    rw [hashLoop_nil (Sha256.new.update a) idx none rfl, List.append_nil]
  | succ n ihn =>
    intro rem hle a idx
    rcases eq_or_ne rem [] with rfl | hne
    · rw [hashLoop_nil (Sha256.new.update a) idx none rfl, List.append_nil]
    · have hpos := List.length_pos.mpr hne
      rw [hashLoop_cons (Sha256.new.update a) rem idx none rfl hne, Sha256.update_update,
        ihn (rem.drop 1024) (by simp only [List.length_drop]; omega) (a ++ rem.take 1024)
          (idx + 1), List.append_assoc, List.take_append_drop]

/-- With no read failure, running the loop from a fresh hasher absorbs the
whole file content. -/
theorem hashLoop_new (content : List Nat) :
    hashLoop Sha256.new content 0 none = .ok (Sha256.new.update content) := by
  have h := hashLoop_none_aux content.length content (le_refl _) [] 0
  rw [show Sha256.new.update [] = Sha256.new from rfl] at h
  simpa using h

/-- The loop errors exactly on a failure index at most the number of data
reads, i.e. at most `⌈rem.length / 1024⌉` past the current index, and returns
that failure's message. -/
theorem hashLoop_error_iff_aux : ∀ n, ∀ rem : List Nat, rem.length ≤ n →
    ∀ (s : Sha256) (idx : Nat) (fa : Option (Nat × String)) (e : String),
      hashLoop s rem idx fa = .error e ↔
        ∃ j, fa = some (j, e) ∧ idx ≤ j ∧ j ≤ idx + (rem.length + 1023) / 1024 := by
  intro n
  induction n with
  | zero =>
    intro rem hle s idx fa e
    have hrem : rem = [] := List.eq_nil_of_length_eq_zero (by omega)
    subst hrem
    cases fa with
    | none =>
      rw [hashLoop_nil s idx none rfl]
      simp
    | some p =>
      obtain ⟨j, e0⟩ := p
      by_cases hj : j = idx
      · rw [hashLoop_error_step s [] idx _ e0 (by simp [readError, hj])]
        simp only [Except.error.injEq, Option.some.injEq, Prod.mk.injEq, List.length_nil]
        constructor
        · rintro rfl
          exact ⟨j, ⟨rfl, rfl⟩, by omega, by omega⟩
        · rintro ⟨j1, ⟨hj1, he1⟩, hlo, hhi⟩
          exact he1
      · rw [hashLoop_nil s idx _ (by simp [readError, hj])]
        simp only [List.length_nil]
        constructor
        · intro h
          exact absurd h (by simp)
        · rintro ⟨j1, hj1, hlo, hhi⟩
          simp only [Option.some.injEq, Prod.mk.injEq] at hj1
          obtain ⟨h1, h2⟩ := hj1
          exfalso
          omega
  | succ n ihn =>
    intro rem hle s idx fa e
    rcases eq_or_ne rem [] with rfl | hne
    · cases fa with
      | none =>
        rw [hashLoop_nil s idx none rfl]
        simp
      | some p =>
        obtain ⟨j, e0⟩ := p
        by_cases hj : j = idx
        · rw [hashLoop_error_step s [] idx _ e0 (by simp [readError, hj])]
          simp only [Except.error.injEq, Option.some.injEq, Prod.mk.injEq, List.length_nil]
          constructor
          · rintro rfl
            exact ⟨j, ⟨rfl, rfl⟩, by omega, by omega⟩
          · rintro ⟨j1, ⟨hj1, he1⟩, hlo, hhi⟩
            exact he1
        · rw [hashLoop_nil s idx _ (by simp [readError, hj])]
          simp only [List.length_nil]
          constructor
          · intro h
            exact absurd h (by simp)
          · rintro ⟨j1, hj1, hlo, hhi⟩
            simp only [Option.some.injEq, Prod.mk.injEq] at hj1
            obtain ⟨h1, h2⟩ := hj1
            exfalso
            omega
    · have hpos := List.length_pos.mpr hne
      cases fa with
      | none =>
        rw [hashLoop_cons s rem idx none rfl hne,
          ihn (rem.drop 1024) (by simp only [List.length_drop]; omega)]
        simp
      | some p =>
        obtain ⟨j, e0⟩ := p
        by_cases hj : j = idx
        · rw [hashLoop_error_step s rem idx _ e0 (by simp [readError, hj])]
          simp only [Except.error.injEq, Option.some.injEq, Prod.mk.injEq]
          constructor
          · rintro rfl
            exact ⟨j, ⟨rfl, rfl⟩, by omega, by omega⟩
          · rintro ⟨j1, ⟨hj1, he1⟩, hlo, hhi⟩
            exact he1
        · rw [hashLoop_cons s rem idx _ (by simp [readError, hj]) hne,
            ihn (rem.drop 1024) (by simp only [List.length_drop]; omega)]
          simp only [Option.some.injEq, Prod.mk.injEq, List.length_drop]
          constructor
          · rintro ⟨j1, ⟨hj1, he1⟩, hlo, hhi⟩
            exact ⟨j1, ⟨hj1, he1⟩, by omega, by omega⟩
          · rintro ⟨j1, ⟨hj1, he1⟩, hlo, hhi⟩
            exact ⟨j1, ⟨hj1, he1⟩, by omega, by omega⟩

/-- Top-level form of `hashLoop_error_iff_aux`. -/
theorem hashLoop_error_iff (s : Sha256) (rem : List Nat) (idx : Nat)
    (fa : Option (Nat × String)) (e : String) :
    hashLoop s rem idx fa = .error e ↔
      ∃ j, fa = some (j, e) ∧ idx ≤ j ∧ j ≤ idx + (rem.length + 1023) / 1024 :=
  hashLoop_error_iff_aux rem.length rem (le_refl _) s idx fa e

/-- A readable file with content `content` hashes to the reference SHA-256
digest, hex encoded. -/
theorem calculate_hash_ok (f : FileModel) (content : List Nat)
    (ho : f.openResult = .ok content) (hr : f.readFailAt = none) :
    calculate_hash f = .ok (hex_encode (sha256_spec content)) := by
  simp only [calculate_hash, ho, hr, hashLoop_new, finalize_update_new]

/-! ### Shape of the hex-encoded digest -/

/-- Unfolding of `hexList` on a cons cell. -/
theorem hexList_cons (b : Nat) (bs : List Nat) :
    hexList (b :: bs) = hexDigit (b >>> 4) :: hexDigit (b &&& 15) :: hexList bs := rfl

/-- Both hex digits of any byte are lowercase hexadecimal characters. -/
theorem hexDigit_byte : ∀ b : Nat, b < 256 →
    isHexDigitLower (hexDigit (b >>> 4)) = true ∧
      isHexDigitLower (hexDigit (b &&& 15)) = true := by
  decide

/-- Hex encoding of bounded bytes yields two lowercase hexadecimal characters
per byte. -/
theorem hexList_spec (bs : List Nat) (hb : ∀ b ∈ bs, b < 256) :
    (hexList bs).length = 2 * bs.length ∧ ∀ c ∈ hexList bs, isHexDigitLower c = true := by
  induction bs with
  | nil => simp [hexList]
  | cons b bs ih =>
    have hhd := hexDigit_byte b (hb b (by simp))
    obtain ⟨hl, hm⟩ := ih (fun x hx => hb x (by simp [hx]))
    constructor
    · simp only [hexList_cons, List.length_cons]
      omega
    · intro c hc
      simp only [hexList_cons, List.mem_cons] at hc
      rcases hc with rfl | rfl | hc
      · exact hhd.1
      · exact hhd.2
      · exact hm c hc

/-- Every byte of `wordBytes` is below 256. -/
theorem wordBytes_lt (w : Nat) : ∀ b ∈ wordBytes w, b < 256 := by
  intro b hb
  have h255 : ∀ x : Nat, x &&& 255 < 256 := fun x =>
    Nat.lt_succ_of_le (Nat.and_le_right)
  simp only [wordBytes, List.mem_cons, List.not_mem_nil, or_false] at hb
  rcases hb with rfl | rfl | rfl | rfl
  · exact h255 _
  · exact h255 _
  · exact h255 _
  · exact h255 _

/-- Every byte of a serialized digest is below 256. -/
theorem wordsToBytes_lt (s : Hash8) : ∀ b ∈ wordsToBytes s, b < 256 := by
  intro b hb
  simp only [wordsToBytes, List.mem_append] at hb
  rcases hb with ((((((hb | hb) | hb) | hb) | hb) | hb) | hb) | hb
  all_goals exact wordBytes_lt _ b hb

/-- A serialized digest has exactly 32 bytes. -/
theorem wordsToBytes_length (s : Hash8) : (wordsToBytes s).length = 32 := by
  simp [wordsToBytes, wordBytes]

/-- Any string produced by a successful `calculate_hash` is the hex encoding
of some finalized hasher state. -/
theorem calculate_hash_ok_inv (f : FileModel) (hash : String)
    (h : calculate_hash f = .ok hash) :
    ∃ hasher : Sha256, hash = hex_encode hasher.finalize := by
  unfold calculate_hash at h
  split at h
  · exact absurd h (by simp)
  · split at h
    · exact absurd h (by simp)
    · rename_i hasher _
      exact ⟨hasher, (by simpa using h.symm : hash = hex_encode hasher.finalize)⟩

/-- The hex encoding of a finalized digest is 64 lowercase hexadecimal
characters. -/
theorem hex_encode_finalize (hasher : Sha256) :
    (hex_encode hasher.finalize).length = 64 ∧
      ∀ c ∈ (hex_encode hasher.finalize).data, isHexDigitLower c = true := by
  have hbytes : ∀ b ∈ hasher.finalize, b < 256 := by
    intro b hb
    exact wordsToBytes_lt _ b hb
  have hlen : hasher.finalize.length = 32 := wordsToBytes_length _
  obtain ⟨h1, h2⟩ := hexList_spec hasher.finalize hbytes
  constructor
  · show (hexList hasher.finalize).length = 64
    rw [h1, hlen]
  · exact h2

/-- The status line printed by `run_cli` never begins with the result-line
marker: its first character differs. -/
theorem status_line_not_result (p : String) (tail : List Char) :
    ("Calculating hash for: " ++ p).data ≠ "SHA-256 Hash: ".data ++ tail := by
  intro hcontra
  rw [show ("Calculating hash for: " ++ p).data =
      'C' :: ("alculating hash for: ".data ++ p.data) from rfl,
    show ("SHA-256 Hash: ".data ++ tail) = 'S' :: ("HA-256 Hash: ".data ++ tail) from rfl]
    at hcontra
  exact absurd (List.head_eq_of_cons_eq hcontra) (by decide)

/-- Chunking with a positive size and flattening gives back the list. -/
theorem chunksOfGo_flatten : ∀ fuel n (l : List Nat), 0 < n → l.length ≤ fuel →
    (chunksOfGo fuel n l).flatten = l := by
  intro fuel
  induction fuel with
  | zero =>
    intro n l hn hle
    have hl : l = [] := List.eq_nil_of_length_eq_zero (by omega)
    subst hl
    rfl
  | succ fuel ih =>
    intro n l hn hle
    rcases eq_or_ne l [] with rfl | hne
    · rfl
    · have hpos := List.length_pos.mpr hne
      simp only [chunksOfGo]
      rw [if_neg (by simp [hne]), if_neg (by omega)]
      simp only [List.flatten_cons]
      rw [ih n (l.drop n) hn (by simp only [List.length_drop]; omega)]
      exact List.take_append_drop n l

/-- Top-level form of `chunksOfGo_flatten`. -/
theorem chunksOf_flatten (n : Nat) (l : List Nat) (hn : 0 < n) :
    (chunksOf n l).flatten = l :=
  chunksOfGo_flatten l.length n l hn (le_refl _)

/-- Reduction of `calculate_hash` when the loop reports a read error. -/
theorem calculate_hash_of_loop_error (f : FileModel) (content : List Nat) (e : String)
    (ho : f.openResult = .ok content)
    (hl : hashLoop Sha256.new content 0 f.readFailAt = .error e) :
    calculate_hash f = .error e := by
  simp only [calculate_hash, ho, hl]

/-- Reduction of `calculate_hash` when the loop completes. -/
theorem calculate_hash_of_loop_ok (f : FileModel) (content : List Nat) (hasher : Sha256)
    (ho : f.openResult = .ok content)
    (hl : hashLoop Sha256.new content 0 f.readFailAt = .ok hasher) :
    calculate_hash f = .ok (hex_encode hasher.finalize) := by
  simp only [calculate_hash, ho, hl]

/-! ### The claims -/

/-- Claim C1: for every byte sequence content, calling calculate_hash on a
path whose file contains exactly content returns Ok of the lowercase
hexadecimal encoding of the SHA-256 digest of content, for all file sizes
including the empty file. -/
theorem C1_calculate_hash_correct (content : List Nat) :
    calculate_hash ⟨.ok content, none⟩ = .ok (hex_encode (sha256_spec content)) :=
  calculate_hash_ok ⟨.ok content, none⟩ content rfl rfl

/-- Claim C2: for every byte sequence content and every positive chunk size,
feeding the chunks into the hash accumulator in order and finalizing yields
the same digest as the implementation's 1024-byte chunking, and the result of
calculate_hash is that digest: the result is independent of re-chunking. -/
theorem C2_rechunk_independent (content : List Nat) (n : Nat) (hn : 0 < n) :
    (List.foldl Sha256.update Sha256.new (chunksOf n content)).finalize =
      (List.foldl Sha256.update Sha256.new (chunksOf 1024 content)).finalize ∧
    calculate_hash ⟨.ok content, none⟩ =
      .ok (hex_encode (List.foldl Sha256.update Sha256.new (chunksOf n content)).finalize) := by
  have h1 : List.foldl Sha256.update Sha256.new (chunksOf n content) =
      Sha256.new.update content := by
    rw [foldl_update_new, chunksOf_flatten n content hn]
  have h2 : List.foldl Sha256.update Sha256.new (chunksOf 1024 content) =
      Sha256.new.update content := by
    rw [foldl_update_new, chunksOf_flatten 1024 content (by omega)]
  refine ⟨by rw [h1, h2], ?_⟩
  rw [h1, finalize_update_new, calculate_hash_ok ⟨.ok content, none⟩ content rfl rfl]

/-- Witness for C2 at content [1, 2, 3] and chunk size 1. -/
theorem C2_witness :
    0 < 1 ∧
      ((List.foldl Sha256.update Sha256.new (chunksOf 1 [1, 2, 3])).finalize =
          (List.foldl Sha256.update Sha256.new (chunksOf 1024 [1, 2, 3])).finalize ∧
        calculate_hash ⟨.ok [1, 2, 3], none⟩ =
          .ok (hex_encode
            (List.foldl Sha256.update Sha256.new (chunksOf 1 [1, 2, 3])).finalize)) :=
  ⟨by decide, C2_rechunk_independent [1, 2, 3] 1 (by decide)⟩

/-- Claim C3: for every successful non-interactive run, the printed result
line consists of the exact prefix followed immediately by exactly 64
lowercase hexadecimal characters and nothing else on that line. -/
theorem C3_output_format (path : String) (f : FileModel)
    (hok : (run_cli path f).result = .ok ()) :
    ∃ hx, (run_cli path f).stdout =
        ["Calculating hash for: " ++ path, "SHA-256 Hash: " ++ hx] ∧
      hx.length = 64 ∧ ∀ c ∈ hx.data, isHexDigitLower c = true := by
  cases hc : calculate_hash f with
  | error e =>
    exfalso
    simp [run_cli, hc] at hok
  | ok hash =>
    obtain ⟨hasher, rfl⟩ := calculate_hash_ok_inv f hash hc
    obtain ⟨hlen, hall⟩ := hex_encode_finalize hasher
    exact ⟨hex_encode hasher.finalize, by simp [run_cli, hc], hlen, hall⟩

/-- Witness for C3 at the empty file. -/
theorem C3_witness :
    ∃ hx, (run_cli "t" ⟨.ok [], none⟩).stdout =
        ["Calculating hash for: " ++ "t", "SHA-256 Hash: " ++ hx] ∧
      hx.length = 64 ∧ ∀ c ∈ hx.data, isHexDigitLower c = true :=
  C3_output_format "t" ⟨.ok [], none⟩ rfl

/-- Claim C4: calculate_hash returns an error if and only if opening the file
or some read during the loop fails (a failure index at most the number of
read calls); the failure message propagates unchanged, and no hash result is
produced. -/
theorem C4_error_iff (f : FileModel) (e : String) :
    calculate_hash f = .error e ↔
      f.openResult = .error e ∨
        ∃ content j, f.openResult = .ok content ∧ f.readFailAt = some (j, e) ∧
          j ≤ (content.length + 1023) / 1024 := by
  cases ho : f.openResult with
  | error e0 =>
    have hcal : calculate_hash f = .error e0 := by
      simp only [calculate_hash, ho]
    rw [hcal]
    constructor
    · intro h
      have he : e0 = e := by simpa using h
      subst he
      exact Or.inl rfl
    · rintro (h | ⟨content, j, hc, _, _⟩)
      · have he : e0 = e := by simpa using h
        subst he
        rfl
      · exact absurd hc (by simp)
  | ok content =>
    cases hl : hashLoop Sha256.new content 0 f.readFailAt with
    | error e0 =>
      rw [calculate_hash_of_loop_error f content e0 ho hl]
      obtain ⟨j, hfa, hlo, hhi⟩ := (hashLoop_error_iff Sha256.new content 0 f.readFailAt e0).mp hl
      constructor
      · intro h
        have he : e0 = e := by simpa using h
        subst he
        exact Or.inr ⟨content, j, rfl, hfa, by omega⟩
      · rintro (h | ⟨content1, j1, hc1, hfa1, hhi1⟩)
        · exact absurd h (by simp)
        · have hcc : content1 = content := by simpa using hc1.symm
          rw [hcc] at hhi1
          have hrun : hashLoop Sha256.new content 0 f.readFailAt = .error e :=
            (hashLoop_error_iff _ _ _ _ _).mpr ⟨j1, hfa1, by omega, by omega⟩
          rw [hl] at hrun
          have he : e0 = e := by simpa using hrun
          subst he
          rfl
    | ok hasher =>
      rw [calculate_hash_of_loop_ok f content hasher ho hl]
      constructor
      · intro h
        exact absurd h (by simp)
      · rintro (h | ⟨content1, j1, hc1, hfa1, hhi1⟩)
        · exact absurd h (by simp)
        · have hcc : content1 = content := by simpa using hc1.symm
          rw [hcc] at hhi1
          have hrun : hashLoop Sha256.new content 0 f.readFailAt = .error e :=
            (hashLoop_error_iff _ _ _ _ _).mpr ⟨j1, hfa1, by omega, by omega⟩
          rw [hl] at hrun
          exact absurd hrun (by simp)

/-- Counterexample to claim C5 as stated: when neither flag selects
non-interactive mode and the graphical panel runs and exits successfully, the
exit code is 0 although no non-interactive run happened (let alone
succeeded), so exit code 0 is not equivalent to non-interactive success. -/
theorem C5_counterexample :
    (main ⟨none, false⟩ (fun _ => ⟨.error "missing", none⟩) true (.ok ())).exitCode = 0 ∧
      (Args.mk none false).cli = false ∧ (Args.mk none false).file = none :=
  ⟨rfl, rfl, rfl⟩

/-- Claim C5 (amended): the exit code is 0 exactly when either the
non-interactive run succeeds or the graphical panel runs and exits
successfully; otherwise — non-interactive mode without a file path, a failed
hash computation, or a failed (or unavailable) graphical panel — it is 1. -/
theorem C5_exit_codes (args : Args) (fs : String → FileModel) (ga : Bool)
    (gr : Except String Unit) :
    ((main args fs ga gr).exitCode = 0 ↔
      ((args.cli = true ∨ args.file ≠ none) ∧
          ∃ path hash, args.file = some path ∧ calculate_hash (fs path) = .ok hash) ∨
        (args.cli = false ∧ args.file = none ∧ ga = true ∧ gr = .ok ())) ∧
    ((main args fs ga gr).exitCode = 0 ∨ (main args fs ga gr).exitCode = 1) := by
  obtain ⟨file, cli⟩ := args
  cases file with
  | some path =>
    cases hc : calculate_hash (fs path) with
    | ok hash => cases cli <;> simp [main, run_cli, hc]
    | error e => cases cli <;> simp [main, run_cli, hc]
  | none =>
    cases cli with
    | true => simp [main]
    | false =>
      cases ga with
      | true =>
        cases gr with
        | ok u =>
          cases u
          simp [main]
        | error e => simp [main]
      | false => simp [main]

/-- Claim C6: hashing a zero-byte file returns the SHA-256 digest of the
empty string, hex encoded as
e3b0c44298fc1c149afbf4c8996fb92427ae41e4649b934ca495991b7852b855. -/
theorem C6_empty_file :
    calculate_hash ⟨.ok [], none⟩ =
      .ok "e3b0c44298fc1c149afbf4c8996fb92427ae41e4649b934ca495991b7852b855" := by
  rfl

/-- Claim C7: invoking non-interactive mode on a file that cannot be opened
exits with a non-zero code, writes an error message to the error stream, and
prints no line beginning with the result prefix to standard output. -/
theorem C7_open_error (args : Args) (fs : String → FileModel) (ga : Bool)
    (gr : Except String Unit) (path : String) (e : String)
    (hfile : args.file = some path) (hopen : (fs path).openResult = .error e) :
    (main args fs ga gr).exitCode = 1 ∧
      (main args fs ga gr).stderr = ["Error calculating hash: " ++ e, "Error: " ++ e] ∧
      (main args fs ga gr).stdout = ["Calculating hash for: " ++ path] ∧
      ∀ line ∈ (main args fs ga gr).stdout, ∀ tail : List Char,
        line.data ≠ "SHA-256 Hash: ".data ++ tail := by
  have hc : calculate_hash (fs path) = .error e := by
    simp only [calculate_hash, hopen]
  have hmain : main args fs ga gr =
      ⟨["Calculating hash for: " ++ path],
        ["Error calculating hash: " ++ e, "Error: " ++ e], 1⟩ := by
    simp [main, hfile, run_cli, hc]
  rw [hmain]
  refine ⟨rfl, rfl, rfl, ?_⟩
  intro line hline tail
  simp only [List.mem_singleton] at hline
  subst hline
  exact status_line_not_result path tail

/-- Witness for C7 at a missing file. -/
theorem C7_witness :
    (main ⟨some "f", false⟩
        (fun _ => ⟨.error "No such file or directory (os error 2)", none⟩) true
        (.ok ())).exitCode = 1 ∧
      (main ⟨some "f", false⟩
          (fun _ => ⟨.error "No such file or directory (os error 2)", none⟩) true
          (.ok ())).stderr =
        ["Error calculating hash: " ++ "No such file or directory (os error 2)",
          "Error: " ++ "No such file or directory (os error 2)"] ∧
      (main ⟨some "f", false⟩
          (fun _ => ⟨.error "No such file or directory (os error 2)", none⟩) true
          (.ok ())).stdout = ["Calculating hash for: " ++ "f"] ∧
      ∀ line ∈ (main ⟨some "f", false⟩
          (fun _ => ⟨.error "No such file or directory (os error 2)", none⟩) true
          (.ok ())).stdout, ∀ tail : List Char,
        line.data ≠ "SHA-256 Hash: ".data ++ tail :=
  C7_open_error ⟨some "f", false⟩
    (fun _ => ⟨.error "No such file or directory (os error 2)", none⟩) true (.ok ())
    "f" "No such file or directory (os error 2)" rfl rfl

/-- Claim C8: calculate_hash is deterministic — on any two file models with
the same byte content and no read failure it produces identical results. -/
theorem C8_deterministic (f1 f2 : FileModel) (content : List Nat)
    (h1 : f1.openResult = .ok content) (h2 : f2.openResult = .ok content)
    (hr1 : f1.readFailAt = none) (hr2 : f2.readFailAt = none) :
    calculate_hash f1 = calculate_hash f2 := by
  rw [calculate_hash_ok f1 content h1 hr1, calculate_hash_ok f2 content h2 hr2]

/-- Witness for C8 at a two-byte file. -/
theorem C8_witness :
    calculate_hash ⟨.ok [116, 101], none⟩ = calculate_hash ⟨.ok [116, 101], none⟩ :=
  C8_deterministic ⟨.ok [116, 101], none⟩ ⟨.ok [116, 101], none⟩ [116, 101]
    rfl rfl rfl rfl

/-- Claim C9: every run_cli invocation prints the status line first, before
the hash is computed, so it appears even when the computation fails and
standard output is never empty. -/
theorem C9_status_first (path : String) (f : FileModel) :
    (run_cli path f).stdout.head? = some ("Calculating hash for: " ++ path) ∧
      (run_cli path f).stdout ≠ [] := by
  cases hc : calculate_hash f with
  | ok hash => simp [run_cli, hc]
  | error e => simp [run_cli, hc]

/-- Claim C10: when the hash computation fails in non-interactive mode, the
underlying error message is written to the error stream twice — once by
run_cli and once by main. -/
theorem C10_double_report (args : Args) (fs : String → FileModel) (ga : Bool)
    (gr : Except String Unit) (path : String) (e : String)
    (hfile : args.file = some path) (herr : calculate_hash (fs path) = .error e) :
    (main args fs ga gr).stderr = ["Error calculating hash: " ++ e, "Error: " ++ e] := by
  simp [main, hfile, run_cli, herr]

/-- Witness for C10 at a permission-denied open failure. -/
theorem C10_witness :
    (main ⟨some "f", true⟩ (fun _ => ⟨.error "denied", none⟩) false
        (.error "x")).stderr =
      ["Error calculating hash: " ++ "denied", "Error: " ++ "denied"] :=
  C10_double_report ⟨some "f", true⟩ (fun _ => ⟨.error "denied", none⟩) false
    (.error "x") "f" "denied" rfl rfl

end HashSafe

